import Mathlib

/-!
Verification of the crypto surge monitor core (src/app.py and
src/streamlit_app.py) against its specification.

The embedding models real-number arithmetic of the Python code with `ℚ`
(times are UTC timestamps measured in minutes, prices in USD), except for
the logistic confidence score, which involves `exp` and is modelled over
`ℝ`.  Python dictionaries (insertion-ordered) are modelled as association
lists; dictionary iteration is iteration over the list.
-/

/-- A price sample stored in a history: a dict entry with a `time` and a `price` field. -/
structure Sample where
  time : ℚ
  price : ℚ
deriving DecidableEq, Repr

abbrev Coin := String

/-- A per-coin history list, ordered by insertion. -/
abbrev History := List Sample

/-- The `histories` dictionary: coin id to history, insertion ordered. -/
abbrev Histories := List (Coin × History)

/-- The quotes mapping consumed by `update_histories`: coin id to
`(price, observed_at)`, with numeric prices as produced in normal
operation of the fetcher. -/
abbrev Quotes := List (Coin × (ℚ × ℤ))

/-- Dictionary lookup in `histories`; a missing key reads as `[]`
(mirroring `histories.setdefault(coin, [])` semantics at the use sites). -/
def lookupHist (hs : Histories) (c : Coin) : History :=
  match hs.find? (fun p => decide (p.1 = c)) with
  | some p => p.2
  | none => []

/-- Dictionary lookup in a quote mapping. -/
def lookupQ (q : Quotes) (c : Coin) : Option (ℚ × ℤ) :=
  (q.find? (fun p => decide (p.1 = c))).map (fun p => p.2)

/-- Embeds `histories[coin] = histories[coin][-60:]` guarded by
`len(histories[coin]) > 60` (src/app.py lines 69-70). -/
def truncate60 (l : History) : History :=
  if 60 < l.length then l.drop (l.length - 60) else l

/-- Embeds the loop body of `update_histories` for one coin
(src/app.py lines 66-70): `histories.setdefault(coin, []).append(entry)`
followed by the truncation guard. -/
def appendSample (now : ℚ) (c : Coin) (price : ℚ) (hs : Histories) : Histories :=
  if hs.any (fun p => decide (p.1 = c)) then
    hs.map (fun p => if p.1 = c then (c, truncate60 (p.2 ++ [⟨now, price⟩])) else p)
  else
    hs ++ [(c, [⟨now, price⟩])]

/-- Embeds `update_histories(prices, histories)` (src/app.py lines 64-70):
one append (plus truncation) per coin present in `prices`, all with the
same capture time `now = datetime.utcnow()`. -/
def update_histories (now : ℚ) (prices : Quotes) (hs : Histories) : Histories :=
  prices.foldl (fun acc p => appendSample now p.1 p.2.1 acc) hs

/-- Embeds the inner `pct_change_over(minutes)` of `compute_predictions`
(src/app.py lines 79-89): scan the history from the front, take the first
entry whose time is at most `now - minutes`; return `0` when none exists
or when the old price is not positive. -/
def pct_change_over (history : History) (current_price now minutes : ℚ) : ℚ :=
  match history.find? (fun e => decide (e.time ≤ now - minutes)) with
  | none => 0
  | some old => if 0 < old.price then (current_price - old.price) / old.price else 0

/-- Embeds `history[-1]["price"]` (src/app.py line 78); the default is
unreachable at use sites, which guard on `len(history) >= 2`. -/
def currentPrice (history : History) : ℚ :=
  (history.getLastD ⟨0, 0⟩).price

/-- Embeds the projection arithmetic of `compute_predictions`
(src/app.py lines 90-94): weighted window returns extrapolated to a
30-minute horizon, expressed in percent.  `r1`, `r5`, `r15` of the source
are the three `pct_change_over` applications. -/
def projected_gain (history : History) (now : ℚ) : ℚ :=
  (0.5 * pct_change_over history (currentPrice history) now 1 * (30 / 1)
    + 0.3 * pct_change_over history (currentPrice history) now 5 * (30 / 5)
    + 0.2 * pct_change_over history (currentPrice history) now 15 * (30 / 15)) * 100

/-- Embeds `compute_predictions(histories)` of src/app.py (lines 72-101).
The wall-clock time `now = datetime.utcnow()` taken at line 74 is an
explicit parameter.  Each result row is `(coin, projected_gain_pct)`;
the confidence column is the function `confidence_core` applied to the
gain (see below) and is kept separate because it lives in `ℝ`. -/
def compute_predictions (now : ℚ) (histories : Histories) : List (Coin × ℚ) :=
  histories.filterMap fun p =>
    if p.2.length < 2 then none
    else some (p.1, projected_gain p.2 now)

/-- Embeds `df.sort_values("time")` of src/streamlit_app.py (line 120) as
a stable sort by time; on chronologically ordered histories (the
maintained invariant) it is the identity. -/
def sortByTime (h : History) : History :=
  h.mergeSort (fun a b => decide (a.time ≤ b.time))

/-- Per-coin gain of the streamlit variant: the history is sorted by
time, `now` is the time of the last row of the sorted frame
(`df["time"].iloc[-1]`, src/streamlit_app.py line 128), the current price
is the last row's price, and the window scan takes the first row of the
filtered frame (`older["price"].iloc[0]`, line 132). -/
def st_gain (h : History) : ℚ :=
  projected_gain (sortByTime h) ((sortByTime h).getLastD ⟨0, 0⟩).time

/-- Embeds `compute_predictions(histories)` of src/streamlit_app.py
(lines 100-155). -/
def compute_predictions_st (histories : Histories) : List (Coin × ℚ) :=
  histories.filterMap fun p =>
    if p.2.length < 2 then none
    else some (p.1, st_gain p.2)

/-- Embeds `confidence = 1.0 / (1.0 + exp(-(projected_gain_pct - 5.0)))`
(src/app.py line 95); the exponential and the number field are parameters
so the definition stays computable, and theorems instantiate them with
`ℝ` and `Real.exp`. -/
def confidence_core {K : Type} [Field K] (E : K → K) (g : K) : K :=
  1 / (1 + E (-(g - 5)))

/-- Spec-described window return (spec.md section 4.3 step 2), written
from the spec text for comparison with the code: the earliest-inserted
sample whose time is at most the cutoff (the head of the filtered
sequence), return `0` when none exists or the old price is not positive. -/
def window_return_spec (history : History) (current_price now w : ℚ) : ℚ :=
  match (history.filter (fun e => decide (e.time ≤ now - w))).head? with
  | none => 0
  | some old => if 0 < old.price then (current_price - old.price) / old.price else 0

/-- Spec-described projected gain (spec.md section 4.3 step 3) built on
the spec-described window returns, with `now` an explicit parameter. -/
def spec_gain (history : History) (now : ℚ) : ℚ :=
  (0.5 * window_return_spec history (currentPrice history) now 1 * (30 / 1)
    + 0.3 * window_return_spec history (currentPrice history) now 5 * (30 / 5)
    + 0.2 * window_return_spec history (currentPrice history) now 15 * (30 / 15)) * 100

/-- Spec-described per-coin gain (spec.md section 4.3 step 1): `now` is
the time of the most recent sample of the (ordered) history. -/
def spec_gain_latest (h : History) : ℚ :=
  spec_gain h (h.getLastD ⟨0, 0⟩).time

/-- Spec-described projection computation (spec.md section 4.3):
assets with fewer than 2 samples are omitted. -/
def compute_predictions_spec (histories : Histories) : List (Coin × ℚ) :=
  histories.filterMap fun p =>
    if p.2.length < 2 then none
    else some (p.1, spec_gain_latest p.2)

/-- The fixed asset list `COINS` (src/app.py lines 25-36). -/
def COINS : List Coin :=
  ["bitcoin", "ethereum", "binancecoin", "ripple", "cardano",
   "solana", "dogecoin", "tron", "polkadot", "litecoin"]

/-- A decoded JSON value appearing as a field of a coin entry: a number
(Python int or float, accepted by `utcfromtimestamp` and by arithmetic)
or a non-numeric value (string, array, object), carried as display text.
A JSON null field is identified with a missing key, since the code
observes fields only through `dict.get`, which returns None in both
cases. -/
inductive PyField where
  | fnum : ℚ → PyField
  | fother : String → PyField
deriving DecidableEq, Repr

/-- A decoded coin entry of the payload: a JSON object (its fields), or a
non-object value of which the code observes only the Python truthiness: a
falsy entry (null, 0, empty string or array) is skipped by `if not info`,
a truthy one reaches `info.get("usd")` and raises AttributeError. -/
inductive PyEntry where
  | edict : List (String × PyField) → PyEntry
  | eother : Bool → PyEntry
deriving DecidableEq, Repr

/-- A decoded payload: a JSON object keyed by coin id, or any non-object
JSON value (array, string, number), on which `data.get(coin)` raises
AttributeError. -/
inductive PyData where
  | ddict : List (String × PyEntry) → PyData
  | dother : PyData
deriving DecidableEq, Repr

/-- The exceptions the parse loop of `fetch_prices` can raise; the loop
(src/app.py lines 52-61) is outside the `try` block, so they propagate to
the caller. -/
inductive PyErr where
  | attributeError : PyErr
  | typeError : PyErr
deriving DecidableEq, Repr

/-- Embeds Python `dict.get` on a decoded JSON object. -/
def pyGet {β : Type} (l : List (String × β)) (k : String) : Option β :=
  (l.find? (fun p => decide (p.1 = k))).map (fun p => p.2)

/-- The `prices` mapping the parse loop builds: the price component is
whatever non-None value the `"usd"` field held (src/app.py line 59 checks
only `price is None`), the time component the numeric timestamp passed
through `utcfromtimestamp`. -/
abbrev QuotesPx := List (Coin × (PyField × ℚ))

/-- One iteration of the `for coin in COINS` loop of `fetch_prices`
(src/app.py lines 53-61) with Python exception semantics: skip absent or
falsy entries and entries missing either field; raise AttributeError at
`data.get` on a non-object payload or at `info.get` on a truthy
non-object entry; raise TypeError at `utcfromtimestamp` when both fields
are present and the timestamp is non-numeric; otherwise produce the row. -/
def fetchEntry (coin : Coin) :
    Option PyEntry → Except PyErr (Option (Coin × (PyField × ℚ)))
  | none => Except.ok none
  | some (PyEntry.eother true) => Except.error PyErr.attributeError
  | some (PyEntry.eother false) => Except.ok none
  | some (PyEntry.edict fields) =>
    if fields.isEmpty then Except.ok none
    else
      match pyGet fields "usd", pyGet fields "last_updated_at" with
      | some pv, some (PyField.fnum q) => Except.ok (some (coin, (pv, q)))
      | some _, some (PyField.fother _) => Except.error PyErr.typeError
      | _, _ => Except.ok none

/-- The loop body applied to `data.get(coin)` of the decoded payload. -/
def fetchCoin (data : PyData) (coin : Coin) :
    Except PyErr (Option (Coin × (PyField × ℚ))) :=
  match data with
  | PyData.dother => Except.error PyErr.attributeError
  | PyData.ddict d => fetchEntry coin (pyGet d coin)

/-- The parse loop over the coin list: an exception raised at some coin
aborts the loop and discards the rows built so far, as in Python. -/
def fetchLoop (data : PyData) : List Coin → QuotesPx → Except PyErr QuotesPx
  | [], acc => Except.ok acc
  | coin :: rest, acc =>
    match fetchCoin data coin with
    | Except.error e => Except.error e
    | Except.ok none => fetchLoop data rest acc
    | Except.ok (some row) => fetchLoop data rest (acc ++ [row])

/-- Embeds `fetch_prices()` (src/app.py lines 38-62) as a function of the
upstream response.  `none` stands for a transport error, a non-success
HTTP status or a JSON decode failure — exactly the failures the `try`
block absorbs into `{}` (lines 46-51).  The parse loop over `COINS`
(lines 52-61) is outside the `try`: on a decoded payload it runs with
Python exception semantics and can raise to the caller. -/
def fetch_prices (resp : Option PyData) : Except PyErr QuotesPx :=
  match resp with
  | none => Except.ok []
  | some data => fetchLoop data COINS []

/-- The coin entries on which the loop body cannot raise: a falsy
non-object, or a JSON object that does not hold both fields with a
non-numeric timestamp. -/
def entryBenign : PyEntry → Bool
  | PyEntry.eother t => !t
  | PyEntry.edict fields =>
    match pyGet fields "usd", pyGet fields "last_updated_at" with
    | some _, some (PyField.fother _) => false
    | _, _ => true

/-- The decoded JSON objects on which the whole parse loop cannot raise. -/
def dataBenign (d : List (String × PyEntry)) : Bool :=
  d.all (fun p => entryBenign p.2)

/-- The row the loop body produces from one looked-up entry when it does
not raise. -/
def rowOfEntry (coin : Coin) : Option PyEntry → Option (Coin × (PyField × ℚ))
  | some (PyEntry.edict fields) =>
    if fields.isEmpty then none
    else
      match pyGet fields "usd", pyGet fields "last_updated_at" with
      | some pv, some (PyField.fnum q) => some (coin, (pv, q))
      | _, _ => none
  | _ => none

/-- The row the loop body produces for one coin when it does not raise. -/
def fetchRow (d : List (String × PyEntry)) (coin : Coin) :
    Option (Coin × (PyField × ℚ)) :=
  rowOfEntry coin (pyGet d coin)

/-- A well-shaped demonstration payload: bitcoin carries both fields,
ethereum misses the price field. -/
def demoData : List (String × PyEntry) :=
  [("bitcoin", PyEntry.edict
      [("usd", PyField.fnum 5), ("last_updated_at", PyField.fnum 7)]),
   ("ethereum", PyEntry.edict [("last_updated_at", PyField.fnum 8)])]

/-- Embeds Python `str.title()` for ASCII strings: an alphabetic character
is uppercased when the previous character is not alphabetic and lowercased
otherwise; the Boolean argument tracks whether the previous character was
alphabetic. -/
def titleChars : Bool → List Char → List Char
  | _, [] => []
  | prevCased, c :: rest =>
    if c.isAlpha then
      (if prevCased then c.toLower else c.toUpper) :: titleChars true rest
    else
      c :: titleChars false rest

/-- Embeds Python `str.replace(pat, rep)` for a non-empty pattern
`p :: ps`: replace every non-overlapping occurrence, scanning left to
right, without rescanning `rep`.  The first argument is fuel (structural
recursion artifact); with fuel at least the length of the scanned list it
is never exhausted, since each step consumes at least one character. -/
def replaceAllF (p : Char) (ps rep : List Char) : Nat → List Char → List Char
  | 0, s => s
  | _ + 1, [] => []
  | fuel + 1, c :: rest =>
    if (p :: ps).isPrefixOf (c :: rest) then
      rep ++ replaceAllF p ps rep fuel (rest.drop ps.length)
    else
      c :: replaceAllF p ps rep fuel rest

/-- Embeds Python `str.replace(pat, rep)` with non-empty pattern. -/
def replaceAll (p : Char) (ps rep s : List Char) : List Char :=
  replaceAllF p ps rep s.length s

/-- Embeds `format_coin_name` (src/app.py lines 103-104):
`coin_id.replace("binancecoin", "Binance Coin").replace("ripple", "XRP").title()`. -/
def format_coin_name (coin_id : String) : String :=
  ⟨titleChars false
    (replaceAll 'r' "ipple".data "XRP".data
      (replaceAll 'b' "inancecoin".data "Binance Coin".data coin_id.data))⟩

/-- One iteration of the `for coin, history in histories.items()` loop of
`compute_predictions` (src/app.py lines 75-100), with the mutable state of
the call — the `results` list being built and the `histories` dictionary —
threaded explicitly.  No branch writes to the dictionary component. -/
def compute_step (now : ℚ) (st : List (Coin × ℚ) × Histories) (p : Coin × History) :
    List (Coin × ℚ) × Histories :=
  if p.2.length < 2 then st
  else (st.1 ++ [(p.1, projected_gain p.2 now)], st.2)

/-- State-threaded form of `compute_predictions`: runs the loop and also
returns the `histories` dictionary as it stands after the call. -/
def compute_predictions_run (now : ℚ) (histories : Histories) :
    List (Coin × ℚ) × Histories :=
  histories.foldl (compute_step now) ([], histories)

/-- One iteration of the `for coin, history in histories.items()` loop of
the streamlit `compute_predictions` (src/streamlit_app.py lines 115-154),
with the mutable state of the call threaded explicitly: the `results`
list being built and the `histories` dictionary.  The pandas frame `df`
is built from `history` as a fresh copy of the sample data (line 119), so
the sort and the column assignments (lines 120-122) touch only that
derived frame; no branch writes to the dictionary or to the stored
sample dicts. -/
def compute_step_st (st : List (Coin × ℚ) × Histories) (p : Coin × History) :
    List (Coin × ℚ) × Histories :=
  if p.2.length < 2 then st
  else (st.1 ++ [(p.1, st_gain p.2)], st.2)

/-- State-threaded form of the streamlit `compute_predictions`: runs the
loop and also returns the `histories` dictionary as it stands after the
call. -/
def compute_predictions_st_run (histories : Histories) :
    List (Coin × ℚ) × Histories :=
  histories.foldl compute_step_st ([], histories)

/-- A two-sample demonstration history: price 100, then price 105 two
minutes later. -/
def demoHist : History := [⟨0, 100⟩, ⟨2, 105⟩]

/-- A histories dictionary holding only the demonstration history. -/
def demoHists : Histories := [("bitcoin", demoHist)]

/-- A full 60-sample history, one sample per minute at price 100. -/
def demo60 : History := (List.range 60).map (fun i => ⟨(i : ℚ), 100⟩)

/-- Length of the truncation step: at most 60, and unchanged below the cap. -/
lemma truncate60_length (l : History) : (truncate60 l).length = min l.length 60 := by
  unfold truncate60
  split
  · rw [List.length_drop]
    omega
  · omega

/-- The spec-described window return agrees with the code's scan: the head
of the filtered sequence is the first match of the forward scan. -/
lemma window_return_spec_eq_pct (h : History) (cp now w : ℚ) :
    window_return_spec h cp now w = pct_change_over h cp now w := by
  unfold window_return_spec pct_change_over
  rw [List.filter_head?]

/-- The spec-described gain agrees with the code's gain for any `now`. -/
lemma spec_gain_eq (h : History) (now : ℚ) :
    spec_gain h now = projected_gain h now := by
  unfold spec_gain projected_gain
  rw [window_return_spec_eq_pct, window_return_spec_eq_pct, window_return_spec_eq_pct]

/-- In a dictionary with no duplicate keys, a key determines its value. -/
lemma nodup_keys_unique {α β : Type} [DecidableEq α] :
    ∀ {l : List (α × β)} {c : α} {b₁ b₂ : β},
      (l.map Prod.fst).Nodup → (c, b₁) ∈ l → (c, b₂) ∈ l → b₁ = b₂ := by
  intro l
  induction l with
  | nil => intro c b₁ b₂ _ m1; exact absurd m1 (List.not_mem_nil _)
  | cons a t ih =>
    intro c b₁ b₂ hnd m1 m2
    rw [List.map_cons, List.nodup_cons] at hnd
    have hkey : ∀ b : β, (c, b) ∈ t → c ∈ t.map Prod.fst :=
      fun b hb => List.mem_map.mpr ⟨(c, b), hb, rfl⟩
    rcases List.mem_cons.mp m1 with h1 | h1 <;> rcases List.mem_cons.mp m2 with h2 | h2
    · exact ((Prod.mk.injEq _ _ _ _).mp (h1.trans h2.symm)).2
    · have ha : a.1 = c := by rw [← h1]
      exact absurd (hkey b₂ h2) (ha ▸ hnd.1)
    · have ha : a.1 = c := by rw [← h2]
      exact absurd (hkey b₁ h1) (ha ▸ hnd.1)
    · exact ih hnd.2 h1 h2

/-- Effect of one append step on a lookup: the targeted coin gets the new
sample appended (and is truncated), every other coin is untouched. -/
lemma lookupHist_appendSample (now : ℚ) (c₀ : Coin) (pr : ℚ) (hs : Histories) (c : Coin) :
    lookupHist (appendSample now c₀ pr hs) c =
      if c = c₀ then truncate60 (lookupHist hs c₀ ++ [Sample.mk now pr]) else lookupHist hs c := by
  unfold appendSample lookupHist
  by_cases hany : hs.any (fun p => decide (p.1 = c₀))
  · rw [if_pos hany, List.find?_map]
    have hpred : ((fun p : Coin × History => decide (p.1 = c)) ∘
        (fun p : Coin × History =>
          if p.1 = c₀ then (c₀, truncate60 (p.2 ++ [Sample.mk now pr])) else p))
        = (fun p : Coin × History => decide (p.1 = c)) := by
      funext q
      by_cases hq : q.1 = c₀ <;> simp [hq]
    rw [hpred]
    by_cases hc : c = c₀
    · subst hc
      have hsome : (hs.find? (fun p => decide (p.1 = c))).isSome := by
        rw [List.find?_isSome]
        rcases List.any_eq_true.mp hany with ⟨x, hx, hpx⟩
        exact ⟨x, hx, hpx⟩
      rcases Option.isSome_iff_exists.mp hsome with ⟨q, hq⟩
      rw [hq]
      have hq1 : q.1 = c := by
        have := List.find?_some hq
        simpa using this
      simp [hq1]
    · rw [if_neg hc]
      cases hfind : hs.find? (fun p => decide (p.1 = c)) with
      | none => simp
      | some q =>
        have hq1 : q.1 = c := by
          have := List.find?_some hfind
          simpa using this
        have hq0 : ¬ q.1 = c₀ := by rw [hq1]; exact hc
        simp [hq0]
  · rw [if_neg hany, List.find?_append]
    have hnoneat : ∀ c' : Coin, c' = c₀ → hs.find? (fun p => decide (p.1 = c')) = none := by
      intro c' hc'
      rw [List.find?_eq_none]
      intro x hx hpx
      have hx1 : x.1 = c' := by simpa using hpx
      exact hany (List.any_eq_true.mpr ⟨x, hx, by simp [hx1, hc']⟩)
    by_cases hc : c = c₀
    · subst hc
      rw [hnoneat c rfl]
      simp [truncate60]
    · have hsingle : (([(c₀, [Sample.mk now pr])] : Histories).find?
          (fun p => decide (p.1 = c))) = none := by
        simp
        exact fun hcon => hc hcon.symm
      rw [hsingle, Option.or_none, if_neg hc]

/-- Effect of a whole `update_histories` call on one coin's history:
quoted coins get the capture-time sample appended then truncated,
unquoted coins are untouched.  Requires the quote keys to be distinct
(a Python dictionary cannot hold duplicate keys). -/
lemma lookupHist_update (now : ℚ) (prices : Quotes) (hs : Histories) (c : Coin)
    (hnd : (prices.map Prod.fst).Nodup) :
    lookupHist (update_histories now prices hs) c =
      match lookupQ prices c with
      | some pu => truncate60 (lookupHist hs c ++ [Sample.mk now pu.1])
      | none => lookupHist hs c := by
  induction prices generalizing hs with
  | nil => rfl
  | cons q rest ih =>
    rw [List.map_cons, List.nodup_cons] at hnd
    have hstep : update_histories now (q :: rest) hs
        = update_histories now rest (appendSample now q.1 q.2.1 hs) := rfl
    rw [hstep, ih (appendSample now q.1 q.2.1 hs) hnd.2]
    by_cases hc : c = q.1
    · have hrest : lookupQ rest c = none := by
        unfold lookupQ
        rw [List.find?_eq_none.mpr]
        · rfl
        · intro x hx hpx
          have hx1 : x.1 = c := by simpa using hpx
          exact hnd.1 (List.mem_map.mpr ⟨x, hx, by rw [hx1, hc]⟩)
      have hcons : lookupQ (q :: rest) c = some q.2 := by
        unfold lookupQ
        rw [List.find?_cons_of_pos _ (by simp [hc])]
        rfl
      rw [hrest, hcons, lookupHist_appendSample, if_pos hc, hc]
    · have hcons : lookupQ (q :: rest) c = lookupQ rest c := by
        unfold lookupQ
        rw [List.find?_cons_of_neg _ (by simp; exact fun hcon => hc hcon.symm)]
      rw [lookupHist_appendSample, if_neg hc, hcons]

/-- Specialization of `lookupHist_update` to a quoted coin. -/
lemma lookupHist_update_quoted (now : ℚ) (prices : Quotes) (hs : Histories) (c : Coin)
    (pr : ℚ) (t : ℤ) (hnd : (prices.map Prod.fst).Nodup)
    (hq : lookupQ prices c = some (pr, t)) :
    lookupHist (update_histories now prices hs) c
      = truncate60 (lookupHist hs c ++ [Sample.mk now pr]) := by
  rw [lookupHist_update now prices hs c hnd, hq]

/-- Reduction of the window scan when the forward scan finds a sample. -/
lemma pct_change_over_eq_some {h : History} {cp now w : ℚ} {old : Sample}
    (hf : h.find? (fun e => decide (e.time ≤ now - w)) = some old) :
    pct_change_over h cp now w = if 0 < old.price then (cp - old.price) / old.price else 0 := by
  unfold pct_change_over
  rw [hf]

/-- Reduction of the window scan when no sample is at or before the cutoff. -/
lemma pct_change_over_eq_none {h : History} {cp now w : ℚ}
    (hf : h.find? (fun e => decide (e.time ≤ now - w)) = none) :
    pct_change_over h cp now w = 0 := by
  unfold pct_change_over
  rw [hf]

/-- On a chronologically ordered history the streamlit sort is the
identity (a stable sort does not move anything). -/
lemma sortByTime_of_sorted (h : History)
    (hsort : List.Pairwise (fun a b : Sample => a.time ≤ b.time) h) :
    sortByTime h = h := by
  unfold sortByTime
  exact List.mergeSort_of_sorted (hsort.imp (fun hab => by simpa using hab))

/-- Pointwise equal bodies give equal `filterMap` results. -/
lemma filterMap_congr_of_mem {α β : Type} (f g : α → Option β) :
    ∀ (l : List α), (∀ a ∈ l, f a = g a) → l.filterMap f = l.filterMap g := by
  intro l
  induction l with
  | nil => intro _; rfl
  | cons a t ih =>
    intro h
    rw [List.filterMap_cons, List.filterMap_cons, h a (List.mem_cons_self a t),
        ih (fun b hb => h b (List.mem_cons_of_mem a hb))]

/-- On chronologically ordered histories the streamlit variant computes
exactly the spec-described projection. -/
lemma st_eq_spec (hs : Histories)
    (hsorted : ∀ p ∈ hs, List.Pairwise (fun a b : Sample => a.time ≤ b.time) p.2) :
    compute_predictions_st hs = compute_predictions_spec hs := by
  unfold compute_predictions_st compute_predictions_spec
  apply filterMap_congr_of_mem
  intro p hp
  by_cases hl : p.2.length < 2
  · rw [if_pos hl, if_pos hl]
  · rw [if_neg hl, if_neg hl]
    have hsort : sortByTime p.2 = p.2 := sortByTime_of_sorted p.2 (hsorted p hp)
    have hg : st_gain p.2 = spec_gain_latest p.2 := by
      unfold st_gain spec_gain_latest
      rw [hsort, spec_gain_eq]
    rw [hg]

/-- Running the explicit loop accumulates exactly the `filterMap` of the
projection body and leaves the dictionary component untouched. -/
lemma foldl_compute_step (now : ℚ) (l : List (Coin × History)) :
    ∀ (acc : List (Coin × ℚ)) (hs : Histories),
      l.foldl (compute_step now) (acc, hs)
        = (acc ++ l.filterMap
            (fun p => if p.2.length < 2 then none else some (p.1, projected_gain p.2 now)), hs) := by
  induction l with
  | nil => intro acc hs; simp
  | cons p t ih =>
    intro acc hs
    rw [List.foldl_cons]
    by_cases hl : p.2.length < 2
    · have hstep : compute_step now (acc, hs) p = (acc, hs) := by
        unfold compute_step
        rw [if_pos hl]
      have hcons : List.filterMap
          (fun p => if p.2.length < 2 then none else some (p.1, projected_gain p.2 now)) (p :: t)
          = List.filterMap
            (fun p => if p.2.length < 2 then none else some (p.1, projected_gain p.2 now)) t :=
        List.filterMap_cons_none (by simp [hl])
      rw [hstep, ih acc hs, hcons]
    · have hstep : compute_step now (acc, hs) p
          = (acc ++ [(p.1, projected_gain p.2 now)], hs) := by
        unfold compute_step
        rw [if_neg hl]
      have hcons : List.filterMap
          (fun p => if p.2.length < 2 then none else some (p.1, projected_gain p.2 now)) (p :: t)
          = (p.1, projected_gain p.2 now) :: List.filterMap
            (fun p => if p.2.length < 2 then none else some (p.1, projected_gain p.2 now)) t :=
        List.filterMap_cons_some (by simp [hl])
      rw [hstep, ih _ hs, hcons, List.append_assoc]
      rfl

/-- The streamlit analogue: running the explicit loop accumulates exactly
the `filterMap` of the projection body and leaves the dictionary
component untouched. -/
lemma foldl_compute_step_st (l : List (Coin × History)) :
    ∀ (acc : List (Coin × ℚ)) (hs : Histories),
      l.foldl compute_step_st (acc, hs)
        = (acc ++ l.filterMap
            (fun p => if p.2.length < 2 then none else some (p.1, st_gain p.2)), hs) := by
  induction l with
  | nil => intro acc hs; simp
  | cons p t ih =>
    intro acc hs
    rw [List.foldl_cons]
    by_cases hl : p.2.length < 2
    · have hstep : compute_step_st (acc, hs) p = (acc, hs) := by
        unfold compute_step_st
        rw [if_pos hl]
      have hcons : List.filterMap
          (fun p => if p.2.length < 2 then none else some (p.1, st_gain p.2)) (p :: t)
          = List.filterMap
            (fun p => if p.2.length < 2 then none else some (p.1, st_gain p.2)) t :=
        List.filterMap_cons_none (by simp [hl])
      rw [hstep, ih acc hs, hcons]
    · have hstep : compute_step_st (acc, hs) p
          = (acc ++ [(p.1, st_gain p.2)], hs) := by
        unfold compute_step_st
        rw [if_neg hl]
      have hcons : List.filterMap
          (fun p => if p.2.length < 2 then none else some (p.1, st_gain p.2)) (p :: t)
          = (p.1, st_gain p.2) :: List.filterMap
            (fun p => if p.2.length < 2 then none else some (p.1, st_gain p.2)) t :=
        List.filterMap_cons_some (by simp [hl])
      rw [hstep, ih _ hs, hcons, List.append_assoc]
      rfl

/-- The two-sample demonstration: the one-minute window finds the first
sample, two minutes old at `now`. -/
lemma pct_demo1 (t0 : ℚ) :
    pct_change_over [⟨t0, 100⟩, ⟨t0 + 2, 105⟩] 105 (t0 + 2) 1 = 0.05 := by
  rw [pct_change_over_eq_some
    (List.find?_cons_of_pos _ (by simp only [decide_eq_true_eq]; linarith))]
  norm_num

/-- The two-sample demonstration: windows longer than two minutes find no
sample at or before the cutoff, so the return is zero. -/
lemma pct_demo_none (t0 w : ℚ) (hw : 2 < w) :
    pct_change_over [⟨t0, 100⟩, ⟨t0 + 2, 105⟩] 105 (t0 + 2) w = 0 := by
  apply pct_change_over_eq_none
  rw [List.find?_cons_of_neg _ (by simp only [decide_eq_true_eq]; intro hcon; linarith),
      List.find?_cons_of_neg _ (by simp only [decide_eq_true_eq]; intro hcon; linarith),
      List.find?_nil]

/-- The two-sample demonstration evaluates to a projected gain of
exactly 75 percent when evaluated at the second sample's time. -/
lemma projected_gain_demo (t0 : ℚ) :
    projected_gain [⟨t0, 100⟩, ⟨t0 + 2, 105⟩] (t0 + 2) = 75 := by
  unfold projected_gain
  rw [show currentPrice [(⟨t0, 100⟩ : Sample), ⟨t0 + 2, 105⟩] = 105 from rfl]
  rw [pct_demo1 t0, pct_demo_none t0 5 (by norm_num), pct_demo_none t0 15 (by norm_num)]
  norm_num

/-- Dropping the head distributes over appending one element to a
non-empty list. -/
lemma drop_one_append_singleton {α : Type} (l : List α) (a : α) (hl : l ≠ []) :
    (l ++ [a]).drop 1 = l.drop 1 ++ [a] := by
  cases l with
  | nil => exact absurd rfl hl
  | cons x xs => rfl

/-- A coin whose history is shorter than 2 samples produces no row in a
guarded projection loop, whatever the gain function is. -/
lemma guarded_not_mem (hs : Histories) (c : Coin) (h : History) (g : ℚ)
    (F : Coin × History → ℚ)
    (hnd : (hs.map Prod.fst).Nodup) (hmem : (c, h) ∈ hs) (hshort : h.length < 2) :
    (c, g) ∉ hs.filterMap (fun p => if p.2.length < 2 then none else some (p.1, F p)) := by
  intro hcon
  rcases List.mem_filterMap.mp hcon with ⟨p, hp, heq⟩
  by_cases hl : p.2.length < 2
  · rw [if_pos hl] at heq
    exact Option.noConfusion heq
  · rw [if_neg hl] at heq
    have hc1 : p.1 = c := congrArg Prod.fst (Option.some.inj heq)
    have hp' : (c, p.2) ∈ hs := by
      have hpe : p = (c, p.2) := by
        rw [← hc1]
      rw [← hpe]
      exact hp
    have hph := nodup_keys_unique hnd hp' hmem
    rw [hph] at hl
    exact hl hshort

/-- A successful `dict.get` exhibits a matching pair of the object. -/
lemma pyGet_mem {β : Type} {l : List (String × β)} {k : String} {v : β}
    (h : pyGet l k = some v) : ∃ p, p ∈ l ∧ p.1 = k ∧ p.2 = v := by
  unfold pyGet at h
  cases hfind : l.find? (fun p => decide (p.1 = k)) with
  | none =>
    rw [hfind] at h
    exact Option.noConfusion h
  | some p =>
    rw [hfind] at h
    have hp : p ∈ l := List.mem_of_find?_eq_some hfind
    have hk : p.1 = k := by
      have := List.find?_some hfind
      simpa using this
    exact ⟨p, hp, hk, Option.some.inj h⟩

/-- On a benign payload the loop body never raises and produces exactly
its `fetchRow`. -/
lemma fetchCoin_benign (d : List (String × PyEntry)) (coin : Coin)
    (hben : dataBenign d = true) :
    fetchCoin (PyData.ddict d) coin = Except.ok (fetchRow d coin) := by
  show fetchEntry coin (pyGet d coin) = Except.ok (rowOfEntry coin (pyGet d coin))
  cases hget : pyGet d coin with
  | none => rfl
  | some entry =>
    rcases pyGet_mem hget with ⟨p, hp, _, hpv⟩
    have hent : entryBenign entry = true := by
      rw [← hpv]
      exact List.all_eq_true.mp hben p hp
    cases entry with
    | eother t =>
      cases t with
      | false => rfl
      | true => exact absurd hent (by simp [entryBenign])
    | edict fields =>
      simp only [fetchEntry, rowOfEntry]
      by_cases hemp : fields.isEmpty
      · rw [if_pos hemp, if_pos hemp]
      · rw [if_neg hemp, if_neg hemp]
        cases hu : pyGet fields "usd" with
        | none => rfl
        | some pv =>
          cases hupd : pyGet fields "last_updated_at" with
          | none => rfl
          | some uv =>
            cases uv with
            | fnum q => rfl
            | fother w =>
              have hfalse : entryBenign (PyEntry.edict fields) = false := by
                simp only [entryBenign]
                rw [hu, hupd]
              rw [hfalse] at hent
              exact Bool.noConfusion hent

/-- On a benign payload the whole loop returns the accumulated rows. -/
lemma fetchLoop_benign (d : List (String × PyEntry)) (hben : dataBenign d = true) :
    ∀ (coins : List Coin) (acc : QuotesPx),
      fetchLoop (PyData.ddict d) coins acc
        = Except.ok (acc ++ coins.filterMap (fetchRow d)) := by
  intro coins
  induction coins with
  | nil => intro acc; simp [fetchLoop]
  | cons coin rest ih =>
    intro acc
    have hstep : fetchLoop (PyData.ddict d) (coin :: rest) acc
        = (match fetchCoin (PyData.ddict d) coin with
           | Except.error e => Except.error e
           | Except.ok none => fetchLoop (PyData.ddict d) rest acc
           | Except.ok (some row) => fetchLoop (PyData.ddict d) rest (acc ++ [row])) := rfl
    rw [hstep, fetchCoin_benign d coin hben]
    cases hrow : fetchRow d coin with
    | none =>
      show fetchLoop (PyData.ddict d) rest acc
          = Except.ok (acc ++ List.filterMap (fetchRow d) (coin :: rest))
      rw [ih acc, List.filterMap_cons_none hrow]
    | some row =>
      show fetchLoop (PyData.ddict d) rest (acc ++ [row])
          = Except.ok (acc ++ List.filterMap (fetchRow d) (coin :: rest))
      rw [ih (acc ++ [row]), List.filterMap_cons_some hrow, List.append_assoc]
      rfl

/-- Characterization of the row produced for one coin. -/
lemma fetchRow_eq_some (d : List (String × PyEntry)) (coin c : Coin)
    (pv : PyField) (t : ℚ) :
    fetchRow d coin = some (c, (pv, t))
      ↔ coin = c ∧ ∃ fields, pyGet d coin = some (PyEntry.edict fields)
          ∧ fields.isEmpty = false
          ∧ pyGet fields "usd" = some pv
          ∧ pyGet fields "last_updated_at" = some (PyField.fnum t) := by
  unfold fetchRow
  cases hget : pyGet d coin with
  | none => simp [rowOfEntry]
  | some entry =>
    cases entry with
    | eother b => simp [rowOfEntry]
    | edict fields =>
      simp only [rowOfEntry]
      by_cases hemp : fields.isEmpty
      · rw [if_pos hemp]
        have hnil : fields = [] := List.isEmpty_iff.mp hemp
        subst hnil
        simp
      · rw [if_neg hemp]
        have hf : fields.isEmpty = false := by
          cases hbe : fields.isEmpty with
          | false => rfl
          | true => exact absurd hbe hemp
        cases hu : pyGet fields "usd" with
        | none => simp [hu]
        | some pv1 =>
          cases hupd : pyGet fields "last_updated_at" with
          | none => simp [hu, hupd]
          | some uv =>
            cases uv with
            | fnum q =>
              have hne : fields ≠ [] := fun hnil => hemp (by rw [hnil]; rfl)
              simp [hu, hupd, hf, hne]
            | fother w => simp [hu, hupd]

/-- C1 counterexample.  The claim computes window returns with `now` equal
to the most recent sample's time; `compute_predictions_spec` formalizes
exactly that reading and yields a 75 percent projected gain on the
two-sample demonstration history.  The code of src/app.py, whose
`now = datetime.utcnow()` is the wall-clock time of the call, yields 84
percent at wall-clock time 10 on the same history: at that instant the
5-minute window also finds the old sample, which the claim's reading
says it must not. -/
theorem C1_counterexample :
    compute_predictions 10 demoHists = [("bitcoin", 84)]
    ∧ compute_predictions_spec demoHists = [("bitcoin", 75)]
    ∧ (84 : ℚ) ≠ 75 := by
  have e1 : compute_predictions 10 demoHists = [("bitcoin", projected_gain demoHist 10)] := rfl
  have e2 : compute_predictions_spec demoHists = [("bitcoin", spec_gain_latest demoHist)] := rfl
  have hp1 : pct_change_over demoHist 105 10 1 = 1 / 20 := by
    rw [show demoHist = [⟨0, 100⟩, ⟨2, 105⟩] from rfl,
        pct_change_over_eq_some
          (List.find?_cons_of_pos _ (by simp only [decide_eq_true_eq]; norm_num))]
    norm_num
  have hp5 : pct_change_over demoHist 105 10 5 = 1 / 20 := by
    rw [show demoHist = [⟨0, 100⟩, ⟨2, 105⟩] from rfl,
        pct_change_over_eq_some
          (List.find?_cons_of_pos _ (by simp only [decide_eq_true_eq]; norm_num))]
    norm_num
  have hp15 : pct_change_over demoHist 105 10 15 = 0 := by
    rw [show demoHist = [⟨0, 100⟩, ⟨2, 105⟩] from rfl]
    apply pct_change_over_eq_none
    rw [List.find?_cons_of_neg _ (by simp only [decide_eq_true_eq]; norm_num),
        List.find?_cons_of_neg _ (by simp only [decide_eq_true_eq]; norm_num),
        List.find?_nil]
  have e3 : projected_gain demoHist 10 = 84 := by
    unfold projected_gain
    rw [show currentPrice demoHist = 105 from rfl, hp1, hp5, hp15]
    norm_num
  have e4 : spec_gain_latest demoHist = projected_gain demoHist 2 := by
    unfold spec_gain_latest
    rw [spec_gain_eq]
    exact rfl
  have e5 : projected_gain demoHist 2 = 75 := by
    have hd := projected_gain_demo 0
    norm_num at hd
    exact hd
  rw [e1, e2, e3, e4, e5]
  exact ⟨rfl, rfl, by norm_num⟩

/-- C1 (amended): window returns scan the ordered history from oldest to
newest and use the first sample whose time is at most `now - w`, with
return 0.0 when no sample qualifies; in src/streamlit_app.py `now` is the
most recent sample's time as the claim states (shown on chronologically
ordered histories, where the stable sort is the identity), while in
src/app.py `now` is the UTC wall-clock time of the call. -/
theorem C1_window_returns_amended (hs : Histories) (now : ℚ)
    (hsorted : ∀ p ∈ hs, List.Pairwise (fun a b : Sample => a.time ≤ b.time) p.2) :
    compute_predictions_st hs = compute_predictions_spec hs
    ∧ compute_predictions now hs
        = hs.filterMap (fun p => if p.2.length < 2 then none else some (p.1, spec_gain p.2 now)) := by
  constructor
  · exact st_eq_spec hs hsorted
  · unfold compute_predictions
    apply filterMap_congr_of_mem
    intro p hp
    by_cases hl : p.2.length < 2
    · rw [if_pos hl, if_pos hl]
    · rw [if_neg hl, if_neg hl, spec_gain_eq]

/-- Witness for C1: the amended statement instantiated on the
demonstration history at wall-clock time 10. -/
theorem C1_window_returns_amended_witness :
    compute_predictions_st demoHists = compute_predictions_spec demoHists
    ∧ compute_predictions 10 demoHists
        = demoHists.filterMap
            (fun p => if p.2.length < 2 then none else some (p.1, spec_gain p.2 10)) :=
  C1_window_returns_amended demoHists 10 (by decide)

/-- C2: for every asset with at least 2 samples the emitted row carries
projected_gain_pct = (0.5*r1*(30/1) + 0.3*r5*(30/5) + 0.2*r15*(30/15)) * 100,
and on a two-sample history (100 at t0, 105 at t0+2 minutes) evaluated at
now = t0+2 the gain is exactly 75 with r1 = 0.05 and r5 = r15 = 0. -/
theorem C2_projection_formula (now : ℚ) (hs : Histories) (c : Coin) (h : History) (t0 : ℚ)
    (hmem : (c, h) ∈ hs) (hlen : 2 ≤ h.length) :
    (c, (0.5 * pct_change_over h (currentPrice h) now 1 * (30 / 1)
        + 0.3 * pct_change_over h (currentPrice h) now 5 * (30 / 5)
        + 0.2 * pct_change_over h (currentPrice h) now 15 * (30 / 15)) * 100)
      ∈ compute_predictions now hs
    ∧ projected_gain [⟨t0, 100⟩, ⟨t0 + 2, 105⟩] (t0 + 2) = 75
    ∧ pct_change_over [⟨t0, 100⟩, ⟨t0 + 2, 105⟩] 105 (t0 + 2) 1 = 0.05
    ∧ pct_change_over [⟨t0, 100⟩, ⟨t0 + 2, 105⟩] 105 (t0 + 2) 5 = 0
    ∧ pct_change_over [⟨t0, 100⟩, ⟨t0 + 2, 105⟩] 105 (t0 + 2) 15 = 0 := by
  refine ⟨?_, projected_gain_demo t0, pct_demo1 t0,
    pct_demo_none t0 5 (by norm_num), pct_demo_none t0 15 (by norm_num)⟩
  apply List.mem_filterMap.mpr
  refine ⟨(c, h), hmem, ?_⟩
  rw [if_neg (Nat.not_lt.mpr hlen)]
  exact rfl

/-- Witness for C2: the formula and the exact arithmetic instantiated on
the demonstration history with t0 = 0 and now = 2. -/
theorem C2_projection_formula_witness :
    ("bitcoin",
      (0.5 * pct_change_over demoHist (currentPrice demoHist) 2 1 * (30 / 1)
        + 0.3 * pct_change_over demoHist (currentPrice demoHist) 2 5 * (30 / 5)
        + 0.2 * pct_change_over demoHist (currentPrice demoHist) 2 15 * (30 / 15)) * 100)
      ∈ compute_predictions 2 demoHists
    ∧ projected_gain [⟨0, 100⟩, ⟨0 + 2, 105⟩] (0 + 2) = 75
    ∧ pct_change_over [⟨0, 100⟩, ⟨0 + 2, 105⟩] 105 (0 + 2) 1 = 0.05
    ∧ pct_change_over [⟨0, 100⟩, ⟨0 + 2, 105⟩] 105 (0 + 2) 5 = 0
    ∧ pct_change_over [⟨0, 100⟩, ⟨0 + 2, 105⟩] 105 (0 + 2) 15 = 0 :=
  C2_projection_formula 2 demoHists "bitcoin" demoHist 0 (by decide) (by decide)

/-- C3: the confidence score is the logistic function
1 / (1 + exp(-(g - 5))); it equals 1/2 exactly at g = 5, it is strictly
increasing, and it lies strictly between 0 and 1. -/
theorem C3_confidence_logistic (g1 g2 : ℝ) (hlt : g1 < g2) :
    confidence_core Real.exp 5 = 1 / 2
    ∧ confidence_core Real.exp g1 < confidence_core Real.exp g2
    ∧ 0 < confidence_core Real.exp g1 ∧ confidence_core Real.exp g1 < 1 := by
  have hpos : ∀ g : ℝ, (0 : ℝ) < 1 + Real.exp (-(g - 5)) := fun g => by positivity
  refine ⟨?_, ?_, ?_, ?_⟩
  · unfold confidence_core
    norm_num [Real.exp_zero]
  · unfold confidence_core
    have hexp : Real.exp (-(g2 - 5)) < Real.exp (-(g1 - 5)) :=
      Real.exp_lt_exp.mpr (by linarith)
    rw [div_lt_div_iff₀ (hpos g1) (hpos g2)]
    linarith
  · unfold confidence_core
    positivity
  · unfold confidence_core
    rw [div_lt_one (hpos g1)]
    have := Real.exp_pos (-(g1 - 5))
    linarith

/-- Witness for C3: the logistic properties instantiated at g1 = 0, g2 = 1. -/
theorem C3_confidence_logistic_witness :
    confidence_core Real.exp 5 = 1 / 2
    ∧ confidence_core Real.exp (0 : ℝ) < confidence_core Real.exp 1
    ∧ 0 < confidence_core Real.exp (0 : ℝ) ∧ confidence_core Real.exp (0 : ℝ) < 1 :=
  C3_confidence_logistic 0 1 (by norm_num)

/-- C4: an update preserves the 60-sample cap on every coin's history,
and appending a 61st sample to a 60-entry history keeps exactly the most
recent 60 entries, whose oldest is the previously 2nd-oldest. -/
theorem C4_cap_invariant (now : ℚ) (prices : Quotes) (hs : Histories) (c d : Coin)
    (pr : ℚ) (t : ℤ)
    (hnd : (prices.map Prod.fst).Nodup)
    (hd : (lookupHist hs d).length ≤ 60)
    (hq : lookupQ prices c = some (pr, t)) :
    (lookupHist (update_histories now prices hs) d).length ≤ 60
    ∧ ((lookupHist hs c).length = 60 →
        lookupHist (update_histories now prices hs) c
          = (lookupHist hs c).drop 1 ++ [Sample.mk now pr]) := by
  constructor
  · rw [lookupHist_update now prices hs d hnd]
    cases hlq : lookupQ prices d with
    | none => exact hd
    | some pu =>
      show (truncate60 (lookupHist hs d ++ [Sample.mk now pu.1])).length ≤ 60
      rw [truncate60_length]
      exact min_le_right _ 60
  · intro h60
    rw [lookupHist_update_quoted now prices hs c pr t hnd hq]
    have hlen61 : (lookupHist hs c ++ [Sample.mk now pr]).length = 61 := by
      rw [List.length_append, h60, List.length_singleton]
    unfold truncate60
    rw [hlen61, if_pos (by omega), show (61 - 60 : ℕ) = 1 from rfl]
    have hne : lookupHist hs c ≠ [] := List.length_pos.mp (by omega)
    exact drop_one_append_singleton _ _ hne

/-- Witness for C4: a full 60-entry history for one coin receives a 61st
sample and is truncated back to 60 entries starting at the old 2nd entry. -/
theorem C4_cap_invariant_witness :
    (lookupHist (update_histories 60 [("bitcoin", (10, 0))] [("bitcoin", demo60)]) "bitcoin").length
      ≤ 60
    ∧ ((lookupHist [("bitcoin", demo60)] "bitcoin").length = 60 →
        lookupHist (update_histories 60 [("bitcoin", (10, 0))] [("bitcoin", demo60)]) "bitcoin"
          = (lookupHist [("bitcoin", demo60)] "bitcoin").drop 1 ++ [Sample.mk 60 10]) :=
  C4_cap_invariant 60 [("bitcoin", (10, 0))] [("bitcoin", demo60)] "bitcoin" "bitcoin" 10 0
    (by decide) (by decide) (by decide)

/-- C5 counterexample.  The parse loop of `fetch_prices` is outside the
`try` block, so on decodable but ill-shaped payloads it raises to the
caller: a truthy non-object coin entry and a non-object payload raise
AttributeError at `.get`, and a non-numeric timestamp with a present
price raises TypeError at `utcfromtimestamp`.  Moreover a present
non-numeric `"usd"` value is included in the result (only `is None` is
checked), not omitted, against the claim's "numeric price" condition. -/
theorem C5_counterexample :
    fetch_prices (some (PyData.ddict [("bitcoin", PyEntry.eother true)]))
      = Except.error PyErr.attributeError
    ∧ fetch_prices (some PyData.dother) = Except.error PyErr.attributeError
    ∧ fetch_prices (some (PyData.ddict
        [("bitcoin", PyEntry.edict
          [("usd", PyField.fnum 5), ("last_updated_at", PyField.fother "x")])]))
      = Except.error PyErr.typeError
    ∧ fetch_prices (some (PyData.ddict
        [("bitcoin", PyEntry.edict
          [("usd", PyField.fother "abc"), ("last_updated_at", PyField.fnum 7)])]))
      = Except.ok [("bitcoin", (PyField.fother "abc", 7))] :=
  ⟨rfl, rfl, rfl, rfl⟩

/-- C5 (amended): transport failures (network error, non-success HTTP
status, JSON decode failure) are absorbed by the `try` block and degrade
to an empty mapping; on a decoded JSON object on which the parse loop
does not raise (every present entry falsy or a JSON object, and no entry
holding both fields with a non-numeric timestamp), the loop returns
without raising exactly the rows for the fixed-list coins whose entry is
a non-empty object carrying both a present (not-None) `"usd"` value of
whatever type and a numeric `"last_updated_at"`; coins with absent
entries or missing fields are omitted while the rest are returned. -/
theorem C5_fetch_amended (d : List (String × PyEntry)) (c : Coin) (pv : PyField) (t : ℚ)
    (hben : dataBenign d = true) :
    fetch_prices none = Except.ok []
    ∧ fetch_prices (some (PyData.ddict d)) = Except.ok (COINS.filterMap (fetchRow d))
    ∧ ((c, (pv, t)) ∈ COINS.filterMap (fetchRow d)
        ↔ c ∈ COINS
          ∧ ∃ fields, pyGet d c = some (PyEntry.edict fields)
            ∧ fields.isEmpty = false
            ∧ pyGet fields "usd" = some pv
            ∧ pyGet fields "last_updated_at" = some (PyField.fnum t)) := by
  refine ⟨rfl, ?_, ?_⟩
  · show fetchLoop (PyData.ddict d) COINS [] = Except.ok (COINS.filterMap (fetchRow d))
    rw [fetchLoop_benign d hben COINS [], List.nil_append]
  · rw [List.mem_filterMap]
    constructor
    · rintro ⟨coin, hcoin, hrow⟩
      rcases (fetchRow_eq_some d coin c pv t).mp hrow with ⟨rfl, hrest⟩
      exact ⟨hcoin, hrest⟩
    · rintro ⟨hc, hrest⟩
      exact ⟨c, hc, (fetchRow_eq_some d c c pv t).mpr ⟨rfl, hrest⟩⟩

/-- Witness for C5: the amended statement on a payload where bitcoin
carries both fields and ethereum misses the price. -/
theorem C5_fetch_amended_witness :
    fetch_prices none = Except.ok []
    ∧ fetch_prices (some (PyData.ddict demoData))
        = Except.ok (COINS.filterMap (fetchRow demoData))
    ∧ (("bitcoin", (PyField.fnum 5, 7)) ∈ COINS.filterMap (fetchRow demoData)
        ↔ "bitcoin" ∈ COINS
          ∧ ∃ fields, pyGet demoData "bitcoin" = some (PyEntry.edict fields)
            ∧ fields.isEmpty = false
            ∧ pyGet fields "usd" = some (PyField.fnum 5)
            ∧ pyGet fields "last_updated_at" = some (PyField.fnum 7)) :=
  C5_fetch_amended demoData "bitcoin" (PyField.fnum 5) 7 (by decide)

/-- C6: an asset with fewer than 2 samples is omitted entirely from the
projection output, in both app variants. -/
theorem C6_short_history_omitted (now : ℚ) (hs : Histories) (c : Coin) (h : History) (g : ℚ)
    (hnd : (hs.map Prod.fst).Nodup) (hmem : (c, h) ∈ hs) (hshort : h.length < 2) :
    (c, g) ∉ compute_predictions now hs ∧ (c, g) ∉ compute_predictions_st hs := by
  constructor
  · exact guarded_not_mem hs c h g (fun p => projected_gain p.2 now) hnd hmem hshort
  · exact guarded_not_mem hs c h g (fun p => st_gain p.2) hnd hmem hshort

/-- Witness for C6: a single one-sample history produces no row. -/
theorem C6_short_history_omitted_witness :
    ("bitcoin", (0 : ℚ)) ∉ compute_predictions 0 [("bitcoin", [⟨0, 100⟩])]
    ∧ ("bitcoin", (0 : ℚ)) ∉ compute_predictions_st [("bitcoin", [⟨0, 100⟩])] :=
  C6_short_history_omitted 0 [("bitcoin", [⟨0, 100⟩])] "bitcoin" [⟨0, 100⟩] 0
    (by decide) (by decide) (by decide)

/-- C7: when the window scan selects a sample with non-positive price the
window return is 0 instead of a division. -/
theorem C7_nonpositive_price_guard (h : History) (cp now w : ℚ) (old : Sample)
    (hfind : h.find? (fun e => decide (e.time ≤ now - w)) = some old)
    (hnp : old.price ≤ 0) :
    pct_change_over h cp now w = 0 := by
  rw [pct_change_over_eq_some hfind]
  exact if_neg (not_lt.mpr hnp)

/-- Witness for C7: a zero-priced old sample yields a zero return. -/
theorem C7_nonpositive_price_guard_witness :
    ([⟨0, 0⟩, ⟨5, 10⟩] : History).find? (fun e => decide (e.time ≤ 10 - 1)) = some ⟨0, 0⟩
    ∧ (Sample.mk 0 0).price ≤ 0
    ∧ pct_change_over [⟨0, 0⟩, ⟨5, 10⟩] 10 10 1 = 0 :=
  ⟨List.find?_cons_of_pos _ (by simp only [decide_eq_true_eq]; norm_num),
   by norm_num,
   C7_nonpositive_price_guard [⟨0, 0⟩, ⟨5, 10⟩] 10 10 1 ⟨0, 0⟩
     (List.find?_cons_of_pos _ (by simp only [decide_eq_true_eq]; norm_num))
     (by norm_num)⟩

/-- C8: two successive updates with the same quote mapping append two
samples for a quoted coin, capped at 60; there is no deduplication. -/
theorem C8_no_dedup (now1 now2 : ℚ) (prices : Quotes) (hs : Histories) (c : Coin)
    (pr : ℚ) (t : ℤ)
    (hnd : (prices.map Prod.fst).Nodup)
    (hq : lookupQ prices c = some (pr, t))
    (hle : (lookupHist hs c).length ≤ 60) :
    (lookupHist (update_histories now2 prices (update_histories now1 prices hs)) c).length
      = min ((lookupHist hs c).length + 2) 60 := by
  rw [lookupHist_update_quoted now2 prices (update_histories now1 prices hs) c pr t hnd hq,
      truncate60_length, List.length_append,
      lookupHist_update_quoted now1 prices hs c pr t hnd hq,
      truncate60_length, List.length_append]
  simp only [List.length_singleton]
  omega

/-- Witness for C8: starting from an empty store, two updates with the
same single-coin quote mapping leave a 2-sample history. -/
theorem C8_no_dedup_witness :
    (lookupHist (update_histories 1 [("bitcoin", (10, 0))]
        (update_histories 0 [("bitcoin", (10, 0))] [])) "bitcoin").length
      = min ((lookupHist [] "bitcoin").length + 2) 60 :=
  C8_no_dedup 0 1 [("bitcoin", (10, 0))] [] "bitcoin" 10 0 (by decide) (by decide) (by decide)

/-- C9: evaluation of the display-name transformation.  The identifier of
the Binance-issued coin maps to "Binance Coin" and other identifiers are
title-cased, but Ripple's identifier maps to "Xrp": the replacement by
"XRP" is clobbered by the subsequent title-casing, which lowercases all
but the first letter of each word. -/
theorem C9_format_eval :
    format_coin_name "ripple" = "Xrp"
    ∧ format_coin_name "binancecoin" = "Binance Coin"
    ∧ format_coin_name "bitcoin" = "Bitcoin"
    ∧ format_coin_name "dogecoin" = "Dogecoin"
    ∧ "Xrp" ≠ "XRP" := by
  exact ⟨by decide, by decide, by decide, by decide, by decide⟩

/-- C10: the projection computation is pure in both app variants: running
either loop with the histories dictionary threaded through returns the
dictionary unchanged together with the usual result list. -/
theorem C10_compute_pure (now : ℚ) (hs : Histories) :
    ((compute_predictions_run now hs).2 = hs
      ∧ (compute_predictions_run now hs).1 = compute_predictions now hs)
    ∧ ((compute_predictions_st_run hs).2 = hs
      ∧ (compute_predictions_st_run hs).1 = compute_predictions_st hs) := by
  constructor
  · unfold compute_predictions_run compute_predictions
    rw [foldl_compute_step now hs [] hs]
    exact ⟨rfl, by rw [List.nil_append]⟩
  · unfold compute_predictions_st_run compute_predictions_st
    rw [foldl_compute_step_st hs [] hs]
    exact ⟨rfl, by rw [List.nil_append]⟩
